import Mathlib

/-!
# Verification of the Defect Risk Prediction Pipeline

Shallow embedding of the core of `ml/defect_predictor.py` together with the
parts of `config.py` it reads.  Python dicts are embedded as association
lists in insertion order, pandas data frames as `List Row`, floating-point
arithmetic as exact rational arithmetic, and fallible operations (sklearn
`transform` on unseen labels, `inverse_transform` out of range, the
untrained-model guard) as `Option`/`Except` values.  The fitted
`RandomForestClassifier` is external library state; it enters the embedding
as an abstract per-row scoring function `mdl : Row → ℚ`.
-/

namespace PDADefect

/-! ## Configuration (`config.py`, `MLConfig`) -/

/-- `MLConfig.min_weight = 0.05`. -/
def min_weight : ℚ := 5 / 100

/-- `MLConfig.max_weight = 0.40`. -/
def max_weight : ℚ := 40 / 100

/-- `MLConfig.top_predictions_count = 5`. -/
def top_predictions_count : ℕ := 5

/-- `MLConfig.sample_size = 10` (fallback sampler size). -/
def sample_size : ℕ := 10

/-! ## `ProductionWeightCalculator.calculate_weights` -/

/-- The per-product clamp `min(max(weight, ml_config.min_weight), ml_config.max_weight)`
from `calculate_weights`. -/
def clampWeight (w : ℚ) : ℚ := min (max w min_weight) max_weight

/-- Embedding of `ProductionWeightCalculator.calculate_weights`.
The Python dict `monthly_production_counts` is an association list in
insertion order.  On empty input the Python function logs a warning and
returns `{}`; total production, raw weights, clamping and renormalization
follow the source line by line. -/
def calculate_weights (monthly_production_counts : List (String × ℕ)) :
    List (String × ℚ) :=
  if monthly_production_counts.isEmpty then []
  else
    let total_production : ℚ := ((monthly_production_counts.map Prod.snd).sum : ℕ)
    let raw_weights := monthly_production_counts.map
      (fun mc => (mc.1, (mc.2 : ℚ) / total_production))
    let production_weights := raw_weights.map (fun mw => (mw.1, clampWeight mw.2))
    let total_weight := (production_weights.map Prod.snd).sum
    production_weights.map (fun mw => (mw.1, mw.2 / total_weight))

theorem clampWeight_mem (w : ℚ) :
    min_weight ≤ clampWeight w ∧ clampWeight w ≤ max_weight := by
  unfold clampWeight min_weight max_weight
  constructor
  · rcases le_total w (5 / 100 : ℚ) with h | h
    · rw [max_eq_right h]
      · norm_num
    · rw [max_eq_left h]
      rcases le_total w (40 / 100 : ℚ) with h2 | h2
      · rw [min_eq_left h2]; exact h
      · rw [min_eq_right h2]; norm_num
  · exact min_le_right _ _

theorem sum_map_div (l : List ℚ) (b : ℚ) :
    (l.map (· / b)).sum = l.sum / b := by
  induction l with
  | nil => simp
  | cons x xs ih => simp [ih, add_div]

theorem list_sum_pos_of_forall_le {l : List ℚ} {c : ℚ} (hc : 0 < c)
    (hl : ∀ x ∈ l, c ≤ x) (hne : l ≠ []) : 0 < l.sum := by
  induction l with
  | nil => exact absurd rfl hne
  | cons x xs ih =>
    rcases List.eq_nil_or_concat xs with h | _
    · subst h
      simpa using lt_of_lt_of_le hc (hl x (by simp))
    · have hx : c ≤ x := hl x (by simp)
      rcases (List.eq_nil_or_concat xs) with h | h
      · subst h; simpa using lt_of_lt_of_le hc hx
      · have hxs : xs ≠ [] := by
          rcases h with ⟨l2, a, rfl⟩; simp
        have := ih (fun y hy => hl y (by simp [hy])) hxs
        have hx0 : 0 < x := lt_of_lt_of_le hc hx
        simpa using add_pos hx0 this

theorem calculate_weights_eq (counts : List (String × ℕ)) (hne : counts ≠ []) :
    calculate_weights counts =
      counts.map (fun mc =>
        (mc.1, clampWeight ((mc.2 : ℚ) / (((counts.map Prod.snd).sum : ℕ) : ℚ)) /
          ((counts.map (fun mc2 =>
            clampWeight ((mc2.2 : ℚ) / (((counts.map Prod.snd).sum : ℕ) : ℚ)))).sum))) := by
  unfold calculate_weights
  rw [if_neg]
  · simp [List.map_map, Function.comp_def]
  · cases counts with
    | nil => exact absurd rfl hne
    | cons a l => simp

theorem clamped_sum_pos (counts : List (String × ℕ)) (hne : counts ≠ []) :
    0 < (counts.map (fun mc2 =>
      clampWeight ((mc2.2 : ℚ) / (((counts.map Prod.snd).sum : ℕ) : ℚ)))).sum := by
  apply list_sum_pos_of_forall_le (c := min_weight)
  · unfold min_weight; norm_num
  · intro x hx
    rcases List.mem_map.mp hx with ⟨mc, _, rfl⟩
    exact (clampWeight_mem _).1
  · cases counts with
    | nil => exact absurd rfl hne
    | cons a l => simp

/-- C1: for every nonempty production-count map (with positive total
production, the only case where the Python avoids `ZeroDivisionError`),
`calculate_weights` clamps each raw weight `count / totalCount` into
`[min_weight, max_weight]` and renormalizes; the returned weights sum to
exactly 1 and are all positive, while the clamp-stage values lie in
`[min_weight, max_weight]`.  The original range claim for the *returned*
weights is refuted by `C1_counterexample`: renormalization can move a
weight outside `[min_weight, max_weight]`. -/
theorem C1_weights_normalized (counts : List (String × ℕ))
    (hpos : 0 < (counts.map Prod.snd).sum) :
    (((calculate_weights counts).map Prod.snd).sum = 1) ∧
    (∀ w ∈ (calculate_weights counts).map Prod.snd, 0 < w) ∧
    (∀ w : ℚ, min_weight ≤ clampWeight w ∧ clampWeight w ≤ max_weight) := by
  have hne : counts ≠ [] := by
    intro h
    rw [h] at hpos
    simp at hpos
  have hW := clamped_sum_pos counts hne
  rw [calculate_weights_eq counts hne]
  refine ⟨?_, ?_, fun w => clampWeight_mem w⟩
  · rw [List.map_map]
    have : (Prod.snd ∘ fun mc : String × ℕ =>
        (mc.1, clampWeight ((mc.2 : ℚ) / (((counts.map Prod.snd).sum : ℕ) : ℚ)) /
          ((counts.map (fun mc2 =>
            clampWeight ((mc2.2 : ℚ) / (((counts.map Prod.snd).sum : ℕ) : ℚ)))).sum))) =
        (fun mc : String × ℕ =>
          clampWeight ((mc.2 : ℚ) / (((counts.map Prod.snd).sum : ℕ) : ℚ)) /
          ((counts.map (fun mc2 =>
            clampWeight ((mc2.2 : ℚ) / (((counts.map Prod.snd).sum : ℕ) : ℚ)))).sum)) := rfl
    rw [this]
    have hsplit : (fun mc : String × ℕ =>
          clampWeight ((mc.2 : ℚ) / (((counts.map Prod.snd).sum : ℕ) : ℚ)) /
          ((counts.map (fun mc2 =>
            clampWeight ((mc2.2 : ℚ) / (((counts.map Prod.snd).sum : ℕ) : ℚ)))).sum)) =
        ((· / ((counts.map (fun mc2 =>
            clampWeight ((mc2.2 : ℚ) / (((counts.map Prod.snd).sum : ℕ) : ℚ)))).sum)) ∘
          (fun mc : String × ℕ =>
            clampWeight ((mc.2 : ℚ) / (((counts.map Prod.snd).sum : ℕ) : ℚ)))) := rfl
    rw [hsplit, ← List.map_map, sum_map_div, div_self (ne_of_gt hW)]
  · intro w hw
    rcases List.mem_map.mp hw with ⟨pr, hpr, rfl⟩
    rcases List.mem_map.mp hpr with ⟨mc, _, rfl⟩
    exact div_pos (lt_of_lt_of_le (by unfold min_weight; norm_num) (clampWeight_mem _).1) hW

/-- C1 witness: the three guarantees evaluated on the concrete map
`{A: 50, B: 30, C: 20}` from the spec's end-to-end scenario. -/
theorem C1_weights_normalized_witness :
    (0 < (([("A", 50), ("B", 30), ("C", 20)].map Prod.snd).sum)) ∧
    ((((calculate_weights [("A", 50), ("B", 30), ("C", 20)]).map Prod.snd).sum = 1) ∧
     (∀ w ∈ (calculate_weights [("A", 50), ("B", 30), ("C", 20)]).map Prod.snd, 0 < w) ∧
     (∀ w : ℚ, min_weight ≤ clampWeight w ∧ clampWeight w ≤ max_weight)) :=
  ⟨by decide, C1_weights_normalized [("A", 50), ("B", 30), ("C", 20)] (by decide)⟩

/-- C1 counterexample: a single-product map `{A: 1}` has raw weight 1,
clamped to `0.40`, renormalized back to `1`, which exceeds
`max_weight = 0.40`; so a returned weight can lie outside
`[min_weight, max_weight]`. -/
theorem C1_counterexample :
    calculate_weights [("A", 1)] = [("A", 1)] ∧ max_weight < 1 := by
  constructor
  · rw [calculate_weights_eq [("A", 1)] (by simp)]
    unfold clampWeight min_weight max_weight
    norm_num
  · unfold max_weight; norm_num

/-- C4: `calculate_weights` on an empty production-count map does *not*
fail: it logs a warning and returns the empty weight map (refuting the
claimed `EmptyInputError`). -/
theorem C4_empty_returns_empty (counts : List (String × ℕ))
    (h : counts = []) : calculate_weights counts = [] := by
  rw [h]; rfl

/-- C4 witness: the empty-input behavior at the concrete empty map. -/
theorem C4_empty_returns_empty_witness :
    (([] : List (String × ℕ)) = []) ∧ calculate_weights [] = [] :=
  ⟨rfl, C4_empty_returns_empty [] rfl⟩

/-- C4 counterexample: on the empty map the function returns the value
`[]` (the empty weight map); there is no error channel at all in
`calculate_weights`, so no `EmptyInputError` can be observed. -/
theorem C4_counterexample : calculate_weights [] = [] := rfl

/-! ## Label encoding (`DefectPredictor.prepare_features`, sklearn `LabelEncoder`)

An sklearn `LabelEncoder` is represented by its fitted `classes_` array: a
sorted list of distinct strings.  `transform` maps a value to its index in
`classes_` and raises `ValueError` on an unseen value (`Option.none` here);
`inverse_transform` indexes into `classes_`. -/

/-- Lexicographic `≤` on char lists by Unicode code point, the order numpy
uses to sort string arrays in `np.unique`. -/
def charLexLe : List Char → List Char → Bool
  | [], _ => true
  | _ :: _, [] => false
  | a :: as, b :: bs =>
    if a.toNat < b.toNat then true
    else if b.toNat < a.toNat then false
    else charLexLe as bs

/-- String `≤` on the underlying char data. -/
def strLe (a b : String) : Bool := charLexLe a.data b.data

/-- `LabelEncoder.fit`: `classes_ = np.unique(values)`, the sorted list of
distinct values. -/
def leFit (values : List String) : List String :=
  (values.dedup).insertionSort (fun a b => strLe a b = true)

/-- `LabelEncoder.transform` on a single value: its index in `classes_`,
or `none` (the `ValueError` case) when the value is unseen. -/
def leTransform (classes : List String) (v : String) : Option ℕ :=
  match classes with
  | [] => none
  | c :: cs => if c = v then some 0 else (leTransform cs v).map (· + 1)

/-- `LabelEncoder.inverse_transform` on a single code: `classes_[c]`, or
`none` (the out-of-range error case). -/
def leInverse (classes : List String) (c : ℕ) : Option String := classes.get? c

/-- `LabelEncoder.transform` over a whole column: all-or-nothing, since a
single unseen value makes the Python call raise for the entire batch. -/
def transformColumn (classes : List String) : List String → Option (List ℕ)
  | [] => some []
  | v :: vs =>
    match leTransform classes v, transformColumn classes vs with
    | some c, some cs => some (c :: cs)
    | _, _ => none

/-- `LabelEncoder.fit_transform`: fit a fresh vocabulary on the batch, then
encode the batch with it (total, since every batch value is in the fitted
vocabulary). -/
def fit_transform (values : List String) : List ℕ × List String :=
  let classes := leFit values
  (values.map (fun v => (leTransform classes v).getD 0), classes)

/-- `data[column].fillna("미분류")`: missing (null) entries of a column are
replaced by the sentinel; present strings — including `""` — are kept. -/
def fillna (column : List (Option String)) : List String :=
  column.map (fun v => v.getD "미분류")

/-- Result of encoding one categorical column in `prepare_features`:
the integer codes, the encoder classes in effect afterwards, and whether a
label-drift refit happened (the logged warning branch). -/
structure EncodeResult where
  codes : List ℕ
  classes : List String
  drift : Bool
deriving DecidableEq

/-- The per-column body of the `for column in columns_to_encode` loop of
`DefectPredictor.prepare_features`: fill missing values with the sentinel,
then either fit a fresh encoder (column not yet in `label_encoders`), or
transform with the existing encoder, refitting from scratch on the current
batch when an unseen label makes `transform` raise. -/
def encodeColumn (existing : Option (List String)) (column : List (Option String)) :
    EncodeResult :=
  let vals := fillna column
  match existing with
  | none =>
    let ft := fit_transform vals
    ⟨ft.1, ft.2, false⟩
  | some classes =>
    match transformColumn classes vals with
    | some codes => ⟨codes, classes, false⟩
    | none =>
      let ft := fit_transform vals
      ⟨ft.1, ft.2, true⟩

theorem transformColumn_eq_none (classes : List String) (vals : List String)
    (v : String) (hv : v ∈ vals) (habs : leTransform classes v = none) :
    transformColumn classes vals = none := by
  induction vals with
  | nil => cases hv
  | cons x xs ih =>
    rcases List.mem_cons.mp hv with rfl | hmem
    · unfold transformColumn
      rw [habs]
    · unfold transformColumn
      rw [ih hmem]
      cases leTransform classes x <;> rfl

/-- C5: if a batch contains a value absent from the fitted vocabulary of a
field, `prepare_features` does not raise: it catches the `ValueError`,
logs a warning (the `drift` flag), refits a fresh `LabelEncoder` on the
current batch — invalidating the old codes — and returns codes computed
from the new vocabulary. -/
theorem C5_label_drift_refits (classes : List String) (column : List (Option String))
    (v : String) (hv : v ∈ fillna column) (habs : leTransform classes v = none) :
    encodeColumn (some classes) column =
      ⟨(fit_transform (fillna column)).1, leFit (fillna column), true⟩ := by
  unfold encodeColumn
  dsimp only
  rw [transformColumn_eq_none classes (fillna column) v hv habs]
  rfl

/-- C5 witness: encoding the batch `["B"]` against the stale vocabulary
`["A"]` drifts, refits on the batch, and recodes it as `[0]`. -/
theorem C5_label_drift_refits_witness :
    ("B" ∈ fillna [some "B"]) ∧ (leTransform ["A"] "B" = none) ∧
    encodeColumn (some ["A"]) [some "B"] =
      ⟨(fit_transform (fillna [some "B"])).1, leFit (fillna [some "B"]), true⟩ :=
  ⟨by decide, by decide, C5_label_drift_refits ["A"] [some "B"] "B" (by decide) (by decide)⟩

theorem fillna_get? (column : List (Option String)) (i : ℕ) (v : Option String)
    (h : column.get? i = some v) : (fillna column).get? i = some (v.getD "미분류") := by
  unfold fillna
  rw [List.get?_map, h]
  rfl

theorem transformColumn_get? (classes : List String) (vals : List String)
    (out : List ℕ) (h : transformColumn classes vals = some out) (i : ℕ) :
    out.get? i = (vals.get? i).bind (leTransform classes) := by
  induction vals generalizing out i with
  | nil =>
    unfold transformColumn at h
    cases h
    rfl
  | cons x xs ih =>
    unfold transformColumn at h
    cases hx : leTransform classes x with
    | none => rw [hx] at h; cases h
    | some c =>
      rw [hx] at h
      cases hxs : transformColumn classes xs with
      | none => rw [hxs] at h; cases h
      | some cs =>
        rw [hxs] at h
        cases h
        cases i with
        | zero => simpa using hx.symm
        | succ n => simpa using ih cs hxs n

/-- C6 (amended): a *null* categorical value is normalized to the literal
sentinel `"미분류"` before fitting/encoding, so a record with a null value
and a record with the literal sentinel receive equal codes, in every branch
of the encoder.  (The original claim also covered the empty string `""`;
that part is refuted by `C6_counterexample`: `fillna` replaces only nulls,
and `""` is a distinct vocabulary entry.) -/
theorem C6_null_normalized (existing : Option (List String))
    (column : List (Option String)) (i j : ℕ)
    (hi : column.get? i = some none) (hj : column.get? j = some (some "미분류")) :
    (encodeColumn existing column).codes.get? i =
      (encodeColumn existing column).codes.get? j := by
  have hvi : (fillna column).get? i = some "미분류" := fillna_get? column i none hi
  have hvj : (fillna column).get? j = some "미분류" := fillna_get? column j (some "미분류") hj
  unfold encodeColumn
  cases existing with
  | none =>
    unfold fit_transform
    dsimp only
    rw [List.get?_map, List.get?_map, hvi, hvj]
  | some classes =>
    dsimp only
    cases htc : transformColumn classes (fillna column) with
    | none =>
      unfold fit_transform
      dsimp only
      rw [List.get?_map, List.get?_map, hvi, hvj]
    | some codes =>
      dsimp only
      rw [transformColumn_get? classes (fillna column) codes htc i,
        transformColumn_get? classes (fillna column) codes htc j, hvi, hvj]

/-- C6 witness: in the batch `[null, "미분류"]` both entries receive the
same code. -/
theorem C6_null_normalized_witness :
    ([none, some "미분류"].get? 0 = some none) ∧
    ([none, some "미분류"].get? 1 = some (some "미분류")) ∧
    (encodeColumn none [none, some "미분류"]).codes.get? 0 =
      (encodeColumn none [none, some "미분류"]).codes.get? 1 :=
  ⟨rfl, rfl, C6_null_normalized none [none, some "미분류"] 0 1 rfl rfl⟩

/-- C6 counterexample: the empty string `""` is *not* normalized: in the
batch `["", "미분류"]` the two records receive different codes, because
`fillna` replaces only nulls and `""` becomes its own vocabulary entry. -/
theorem C6_counterexample :
    (encodeColumn none [some "", some "미분류"]).codes.get? 0 ≠
      (encodeColumn none [some "", some "미분류"]).codes.get? 1 := by
  decide

/-- C9: for every value present in a field's vocabulary at encode time,
decoding the code produced for it yields the value back:
`inverse_transform (transform v) = v`. -/
theorem C9_roundtrip (classes : List String) (v : String) (hv : v ∈ classes) :
    (leTransform classes v).bind (leInverse classes) = some v := by
  induction classes with
  | nil => cases hv
  | cons c cs ih =>
    unfold leTransform
    by_cases hc : c = v
    · rw [if_pos hc]
      simp [leInverse, hc]
    · rw [if_neg hc]
      have hmem : v ∈ cs := by
        rcases List.mem_cons.mp hv with rfl | h
        · exact absurd rfl hc
        · exact h
      have := ih hmem
      cases ht : leTransform cs v with
      | none => rw [ht] at this; cases this
      | some i =>
        rw [ht] at this
        simpa [leInverse] using this

/-- C9 witness: the round trip on the vocabulary `["A", "B"]` at `"B"`. -/
theorem C9_roundtrip_witness :
    ("B" ∈ ["A", "B"]) ∧
    (leTransform ["A", "B"] "B").bind (leInverse ["A", "B"]) = some "B" :=
  ⟨by decide, C9_roundtrip ["A", "B"] "B" (by decide)⟩

/-! ## Stable descending sort

`sorted(..., reverse=True)`, `DataFrame.sort_values(ascending=False)` and
`Series.nlargest(n)` (default `keep="first"`) are all *stable* descending
sorts.  A stable descending sort is characterized uniquely on
index-annotated elements: strictly larger keys first, and among equal keys
the originally earlier (smaller-index) element first.  We embed them by
sorting the enumerated list with that total order. -/

/-- The total order of a stable descending sort on index-annotated
elements. -/
def stableDescRel {α : Type} {β : Type} [LinearOrder β] (key : α → β) :
    (ℕ × α) → (ℕ × α) → Prop :=
  fun a b => key b.2 < key a.2 ∨ (key a.2 = key b.2 ∧ a.1 ≤ b.1)

instance stableDescRel_decidable {α β : Type} [LinearOrder β] (key : α → β) :
    DecidableRel (stableDescRel key) := by
  intro a b
  unfold stableDescRel
  infer_instance

instance stableDescRel_total {α β : Type} [LinearOrder β] (key : α → β) :
    IsTotal (ℕ × α) (stableDescRel key) := by
  constructor
  intro a b
  unfold stableDescRel
  rcases lt_trichotomy (key a.2) (key b.2) with h | h | h
  · exact Or.inr (Or.inl h)
  · rcases le_total a.1 b.1 with h2 | h2
    · exact Or.inl (Or.inr ⟨h, h2⟩)
    · exact Or.inr (Or.inr ⟨h.symm, h2⟩)
  · exact Or.inl (Or.inl h)

instance stableDescRel_trans {α β : Type} [LinearOrder β] (key : α → β) :
    IsTrans (ℕ × α) (stableDescRel key) := by
  constructor
  intro a b c hab hbc
  unfold stableDescRel at *
  rcases hab with hab | ⟨hab, hab2⟩
  · rcases hbc with hbc | ⟨hbc, _⟩
    · exact Or.inl (lt_trans hbc hab)
    · exact Or.inl (hbc ▸ hab)
  · rcases hbc with hbc | ⟨hbc, hbc2⟩
    · exact Or.inl (lt_of_lt_of_le hbc (le_of_eq hab.symm))
    · exact Or.inr ⟨hab.trans hbc, le_trans hab2 hbc2⟩

/-- Stable descending sort by a key, as Python/pandas perform it. -/
def pySortedDesc {α β : Type} [LinearOrder β] (key : α → β) (l : List α) :
    List α :=
  ((l.enum).insertionSort (stableDescRel key)).map Prod.snd

theorem pySortedDesc_perm {α β : Type} [LinearOrder β] (key : α → β)
    (l : List α) : (pySortedDesc key l).Perm l := by
  unfold pySortedDesc
  have h1 := (List.perm_insertionSort (stableDescRel key) l.enum).map Prod.snd
  rw [List.enum_map_snd] at h1
  exact h1

/-! ## `DefectPredictor.predict_defect_probability`: representative sampling

One historical defect observation, already label-encoded as in the data
frame the sampler works on (`제품명`/`부품명`/`검출단계` are integer codes).
`keywordText` is the joined keyword text fed to the TF-IDF step and
`keywords` the keyword list shown in predictions. -/
structure Row where
  product : ℕ
  part : ℕ
  stage : ℕ
  keywordText : String
  keywords : List String
deriving DecidableEq

/-- `speed_controller_encoded`: the code of the configured noise part
`"SPEED CONTROLLER"`, or `none` when that part is not in the `부품명`
vocabulary (the swallowed `ValueError`/`KeyError`). -/
def speedControllerEnc (partClasses : List String) : Option ℕ :=
  leTransform partClasses "SPEED CONTROLLER"

/-- The unconditional `model_data[model_data["부품명"] != speed_controller_encoded]`
filter (applied only when the noise part is in the vocabulary). -/
def noiseFiltered (partClasses : List String) (rows : List Row) : List Row :=
  match speedControllerEnc partClasses with
  | none => rows
  | some s => rows.filter (fun r => r.part != s)

/-- `model_part_count`: occurrences of an (encoded) part among a model's
rows. -/
def partCount (rows : List Row) (p : ℕ) : ℕ :=
  (rows.filter (fun r => r.part == p)).length

/-- The index of the `groupby("부품명") ... .first()` series: the distinct
part codes in ascending order (pandas groupby sorts its keys). -/
def sortedPartKeys (rows : List Row) : List ℕ :=
  ((rows.map Row.part).dedup).insertionSort (· ≤ ·)

/-- `top_parts = ....nlargest(2).index`: the (at most) two part codes with
the largest occurrence counts, ties resolved toward the smaller code
(`nlargest` keeps first occurrences of the ascending-indexed series). -/
def topParts (rows : List Row) : List ℕ :=
  (pySortedDesc (fun p => partCount rows p) (sortedPartKeys rows)).take 2

/-- One iteration of the `for model_name in monthly_production_models`
loop: encode the model name (skipping it on `ValueError`), select and
noise-filter its rows, skip when none remain, and take one representative
row (`part_data.iloc[0:1]` of the order-preserving merge) per top part,
tagged with the model's production count. -/
def modelSamples (productClasses partClasses : List String) (data : List Row)
    (name : String) (cnt : ℕ) : List (Row × ℕ) :=
  match leTransform productClasses name with
  | none => []
  | some enc =>
    let md := data.filter (fun r => r.product == enc)
    let md2 := noiseFiltered partClasses md
    if md2.isEmpty then []
    else (topParts md2).filterMap
      (fun p => (md2.find? (fun r => r.part == p)).map (fun r => (r, cnt)))

/-- Concatenation of the per-model sample lists. -/
def concatMap {α β : Type} (f : α → List β) : List α → List β
  | [] => []
  | a :: as => f a ++ concatMap f as

/-- `model_representative_samples` accumulated over all monthly production
models.  Python iterates a `set` of the dict keys; the association list
order stands in for that iteration order (no claim depends on it). -/
def representativeSamples (productClasses partClasses : List String)
    (counts : List (String × ℕ)) (data : List Row) : List (Row × ℕ) :=
  concatMap (fun mc => modelSamples productClasses partClasses data mc.1 mc.2) counts

/-- `sample_data`: the concatenated representatives sorted by production
count descending (`sort_values`, stable), or — when no model produced a
representative — the weighted random fallback sample, which enters the
embedding as the abstract `fallback` argument. -/
def sampleData (productClasses partClasses : List String)
    (counts : List (String × ℕ)) (data : List Row) (fallback : List Row) :
    List Row :=
  let reps := representativeSamples productClasses partClasses counts data
  if reps.isEmpty then fallback
  else (pySortedDesc (fun rc : Row × ℕ => rc.2) reps).map Prod.fst

theorem leTransform_get? (classes : List String) (v : String) (i : ℕ)
    (h : leTransform classes v = some i) : classes.get? i = some v := by
  induction classes generalizing i with
  | nil => cases h
  | cons c cs ih =>
    unfold leTransform at h
    by_cases hc : c = v
    · rw [if_pos hc] at h
      cases h
      simpa using hc
    · rw [if_neg hc] at h
      cases ht : leTransform cs v with
      | none => rw [ht] at h; cases h
      | some j =>
        rw [ht] at h
        cases h
        simpa using ih j ht

theorem leTransform_inj (classes : List String) (n1 n2 : String) (i : ℕ)
    (h1 : leTransform classes n1 = some i) (h2 : leTransform classes n2 = some i) :
    n1 = n2 := by
  have g1 := leTransform_get? classes n1 i h1
  have g2 := leTransform_get? classes n2 i h2
  rw [g1] at g2
  exact Option.some.inj g2

theorem mem_concatMap {α β : Type} (f : α → List β) (l : List α) (b : β) :
    b ∈ concatMap f l ↔ ∃ a ∈ l, b ∈ f a := by
  induction l with
  | nil => simp [concatMap]
  | cons a as ih => simp [concatMap, ih]

theorem representativeSamples_cons (pc prtc : List String) (mc : String × ℕ)
    (rest : List (String × ℕ)) (data : List Row) :
    representativeSamples pc prtc (mc :: rest) data =
      modelSamples pc prtc data mc.1 mc.2 ++ representativeSamples pc prtc rest data := rfl

theorem noiseFiltered_subset (prtc : List String) (rows : List Row) (r : Row)
    (h : r ∈ noiseFiltered prtc rows) : r ∈ rows := by
  unfold noiseFiltered at h
  cases hsc : speedControllerEnc prtc with
  | none => rw [hsc] at h; exact h
  | some s =>
    rw [hsc] at h
    exact (List.mem_filter.mp h).1

theorem noiseFiltered_part (prtc : List String) (rows : List Row) (r : Row) (s : ℕ)
    (hsc : speedControllerEnc prtc = some s) (h : r ∈ noiseFiltered prtc rows) :
    r.part ≠ s := by
  unfold noiseFiltered at h
  rw [hsc] at h
  have := (List.mem_filter.mp h).2
  simpa using this

theorem mem_modelSamples (pc prtc : List String) (data : List Row) (name : String)
    (cnt : ℕ) (rc : Row × ℕ) (h : rc ∈ modelSamples pc prtc data name cnt) :
    ∃ enc, leTransform pc name = some enc ∧
      rc.1 ∈ noiseFiltered prtc (data.filter (fun r => r.product == enc)) ∧
      rc.1.product = enc ∧ rc.2 = cnt := by
  unfold modelSamples at h
  cases henc : leTransform pc name with
  | none => rw [henc] at h; cases h
  | some enc =>
    rw [henc] at h
    dsimp only at h
    by_cases hemp :
        (noiseFiltered prtc (data.filter (fun r => r.product == enc))).isEmpty = true
    · rw [if_pos hemp] at h; cases h
    · rw [if_neg hemp] at h
      rcases List.mem_filterMap.mp h with ⟨p, _, hmap⟩
      rcases Option.map_eq_some'.mp hmap with ⟨r, hfind, hrc⟩
      have hmem : r ∈ noiseFiltered prtc (data.filter (fun r2 => r2.product == enc)) :=
        List.mem_of_find?_eq_some hfind
      have hprod : r.product = enc := by
        have := (List.mem_filter.mp (noiseFiltered_subset _ _ _ hmem)).2
        simpa using this
      refine ⟨enc, rfl, ?_, ?_, ?_⟩
      · rw [← hrc]; exact hmem
      · rw [← hrc]; exact hprod
      · rw [← hrc]

theorem modelSamples_length_le (pc prtc : List String) (data : List Row)
    (name : String) (cnt : ℕ) : (modelSamples pc prtc data name cnt).length ≤ 2 := by
  unfold modelSamples
  cases leTransform pc name with
  | none => simp
  | some enc =>
    dsimp only
    split
    · simp
    · refine le_trans (List.length_filterMap_le _ _) ?_
      unfold topParts
      rw [List.length_take]
      exact min_le_left _ _

theorem modelSamples_countP_zero (pc prtc : List String) (data : List Row)
    (name : String) (cnt : ℕ) (enc : ℕ) (h : leTransform pc name ≠ some enc) :
    (modelSamples pc prtc data name cnt).countP (fun rc => rc.1.product == enc) = 0 := by
  rw [List.countP_eq_zero]
  intro rc hrc
  rcases mem_modelSamples pc prtc data name cnt rc hrc with ⟨enc', henc', _, hprod, _⟩
  intro hp
  have : rc.1.product = enc := by simpa using hp
  rw [this] at hprod
  rw [← hprod] at henc'
  exact h henc'

theorem reps_countP_zero (pc prtc : List String) (counts : List (String × ℕ))
    (data : List Row) (enc : ℕ)
    (hall : ∀ mc ∈ counts, leTransform pc mc.1 ≠ some enc) :
    (representativeSamples pc prtc counts data).countP
      (fun rc => rc.1.product == enc) = 0 := by
  induction counts with
  | nil => rfl
  | cons mc rest ih =>
    rw [representativeSamples_cons, List.countP_append]
    rw [modelSamples_countP_zero pc prtc data mc.1 mc.2 enc (hall mc (by simp)),
      ih (fun mc2 hmc2 => hall mc2 (by simp [hmc2]))]

theorem reps_countP_le_two (pc prtc : List String) (counts : List (String × ℕ))
    (data : List Row) (enc : ℕ) (hnodup : (counts.map Prod.fst).Nodup) :
    (representativeSamples pc prtc counts data).countP
      (fun rc => rc.1.product == enc) ≤ 2 := by
  induction counts with
  | nil => simp [representativeSamples, concatMap]
  | cons mc rest ih =>
    rw [List.map_cons, List.nodup_cons] at hnodup
    rw [representativeSamples_cons, List.countP_append]
    by_cases hmc : leTransform pc mc.1 = some enc
    · have h1 : (modelSamples pc prtc data mc.1 mc.2).countP
          (fun rc => rc.1.product == enc) ≤ 2 :=
        le_trans (List.countP_le_length _) (modelSamples_length_le pc prtc data mc.1 mc.2)
      have h2 : (representativeSamples pc prtc rest data).countP
          (fun rc => rc.1.product == enc) = 0 := by
        apply reps_countP_zero
        intro mc2 hmc2 hbad
        have : mc2.1 = mc.1 := leTransform_inj pc mc2.1 mc.1 enc hbad hmc
        exact hnodup.1 (this ▸ List.mem_map_of_mem Prod.fst hmc2)
      omega
    · have h1 := modelSamples_countP_zero pc prtc data mc.1 mc.2 enc hmc
      have h2 := ih hnodup.2
      omega

theorem pySortedDesc_ne_nil {α β : Type} [LinearOrder β] (key : α → β)
    (l : List α) (h : l ≠ []) : pySortedDesc key l ≠ [] := by
  intro hs
  have hp := pySortedDesc_perm key l
  rw [hs] at hp
  exact h hp.symm.eq_nil

theorem modelSamples_represents (pc prtc : List String) (data : List Row)
    (name : String) (cnt : ℕ) (enc : ℕ) (r : Row)
    (henc : leTransform pc name = some enc) (hr : r ∈ data) (hprod : r.product = enc)
    (hnoise : ∀ s, speedControllerEnc prtc = some s → r.part ≠ s) :
    ∃ rc ∈ modelSamples pc prtc data name cnt, rc.1.product = enc ∧ rc.2 = cnt := by
  have hrmd : r ∈ data.filter (fun r2 => r2.product == enc) :=
    List.mem_filter.mpr ⟨hr, by simp [hprod]⟩
  have hrmd2 : r ∈ noiseFiltered prtc (data.filter (fun r2 => r2.product == enc)) := by
    unfold noiseFiltered
    cases hsc : speedControllerEnc prtc with
    | none => exact hrmd
    | some s =>
      refine List.mem_filter.mpr ⟨hrmd, ?_⟩
      simpa using hnoise s hsc
  have hne2 : noiseFiltered prtc (data.filter (fun r2 => r2.product == enc)) ≠ [] :=
    List.ne_nil_of_mem hrmd2
  have hkeys : sortedPartKeys (noiseFiltered prtc
      (data.filter (fun r2 => r2.product == enc))) ≠ [] := by
    unfold sortedPartKeys
    intro hnil
    have hp := List.perm_insertionSort (fun a b : ℕ => a ≤ b)
      ((noiseFiltered prtc (data.filter (fun r2 => r2.product == enc))).map Row.part).dedup
    rw [hnil] at hp
    have : r.part ∈ ((noiseFiltered prtc
        (data.filter (fun r2 => r2.product == enc))).map Row.part).dedup :=
      List.mem_dedup.mpr (List.mem_map_of_mem Row.part hrmd2)
    cases hp.symm.mem_iff.mp this
  have htop : topParts (noiseFiltered prtc
      (data.filter (fun r2 => r2.product == enc))) ≠ [] := by
    unfold topParts
    intro hnil
    rcases List.take_eq_nil_iff.mp hnil with h2 | h2
    · norm_num at h2
    · exact pySortedDesc_ne_nil _ _ hkeys h2
  rcases List.exists_mem_of_ne_nil _ htop with ⟨p0, hp0⟩
  have hp0keys : p0 ∈ sortedPartKeys (noiseFiltered prtc
      (data.filter (fun r2 => r2.product == enc))) := by
    have h1 : p0 ∈ pySortedDesc
        (fun p => partCount (noiseFiltered prtc
          (data.filter (fun r2 => r2.product == enc))) p)
        (sortedPartKeys (noiseFiltered prtc
          (data.filter (fun r2 => r2.product == enc)))) :=
      (List.take_sublist _ _).mem hp0
    exact (pySortedDesc_perm _ _).mem_iff.mp h1
  have hp0parts : p0 ∈ (noiseFiltered prtc
      (data.filter (fun r2 => r2.product == enc))).map Row.part := by
    unfold sortedPartKeys at hp0keys
    have := (List.perm_insertionSort (fun a b : ℕ => a ≤ b) _).mem_iff.mp hp0keys
    exact List.mem_dedup.mp this
  have hfind : ∃ r1, (noiseFiltered prtc
      (data.filter (fun r2 => r2.product == enc))).find? (fun r2 => r2.part == p0) =
        some r1 := by
    cases hf : (noiseFiltered prtc
        (data.filter (fun r2 => r2.product == enc))).find? (fun r2 => r2.part == p0) with
    | none =>
      rcases List.mem_map.mp hp0parts with ⟨r1, hr1, hr1p⟩
      have := List.find?_eq_none.mp hf r1 hr1
      simp [hr1p] at this
    | some r1 => exact ⟨r1, rfl⟩
  rcases hfind with ⟨r1, hfind⟩
  have hr1mem : r1 ∈ noiseFiltered prtc (data.filter (fun r2 => r2.product == enc)) :=
    List.mem_of_find?_eq_some hfind
  have hr1prod : r1.product = enc := by
    have := (List.mem_filter.mp (noiseFiltered_subset _ _ _ hr1mem)).2
    simpa using this
  refine ⟨(r1, cnt), ?_, hr1prod, rfl⟩
  unfold modelSamples
  rw [henc]
  dsimp only
  rw [if_neg (by simpa [List.isEmpty_eq_false] using hne2)]
  exact List.mem_filterMap.mpr ⟨p0, hp0, by rw [hfind]; rfl⟩

theorem calculate_weights_pos (counts : List (String × ℕ))
    (hpos : 0 < (counts.map Prod.snd).sum) :
    ∀ pr ∈ calculate_weights counts, 0 < pr.2 := by
  have hne : counts ≠ [] := by
    intro h
    rw [h] at hpos
    simp at hpos
  have hW := clamped_sum_pos counts hne
  rw [calculate_weights_eq counts hne]
  intro pr hpr
  rcases List.mem_map.mp hpr with ⟨mc, _, rfl⟩
  exact div_pos (lt_of_lt_of_le (by unfold min_weight; norm_num) (clampWeight_mem _).1) hW

/-- C2 (amended): every product of the production-count map whose name is
in the product vocabulary and that has at least one matching historical
row *surviving the noise filter* gets at least one row in the sampler
output, and (the count-map keys being distinct, as dict keys are) no
product ever gets more than 2 rows.  The original claim — coverage for
every product with merely *some* matching row — is refuted by
`C2_counterexample`: a product whose only rows carry the noise part is
dropped entirely. -/
theorem C2_representative_coverage (pc prtc : List String)
    (counts : List (String × ℕ)) (data fallback : List Row)
    (hnodup : (counts.map Prod.fst).Nodup)
    (name : String) (cnt : ℕ) (hmem : (name, cnt) ∈ counts) (enc : ℕ)
    (henc : leTransform pc name = some enc) (r : Row) (hr : r ∈ data)
    (hprod : r.product = enc)
    (hnoise : ∀ s, speedControllerEnc prtc = some s → r.part ≠ s) :
    (∃ r2 ∈ sampleData pc prtc counts data fallback, r2.product = enc) ∧
    (sampleData pc prtc counts data fallback).countP
      (fun r2 => r2.product == enc) ≤ 2 := by
  rcases modelSamples_represents pc prtc data name cnt enc r henc hr hprod hnoise with
    ⟨rc, hrc, hrcprod, _⟩
  have hreps : rc ∈ representativeSamples pc prtc counts data :=
    (mem_concatMap _ _ _).mpr ⟨(name, cnt), hmem, hrc⟩
  have hrne : representativeSamples pc prtc counts data ≠ [] := List.ne_nil_of_mem hreps
  have hesome : sampleData pc prtc counts data fallback =
      (pySortedDesc (fun rc2 : Row × ℕ => rc2.2)
        (representativeSamples pc prtc counts data)).map Prod.fst := by
    unfold sampleData
    dsimp only
    rw [if_neg (fun h => hrne (List.isEmpty_eq_true.mp h))]
  constructor
  · refine ⟨rc.1, ?_, hrcprod⟩
    rw [hesome]
    exact List.mem_map_of_mem Prod.fst ((pySortedDesc_perm _ _).mem_iff.mpr hreps)
  · rw [hesome, List.countP_map]
    have hcp : ((fun r2 : Row => r2.product == enc) ∘ Prod.fst) =
        (fun rc2 : Row × ℕ => rc2.1.product == enc) := rfl
    rw [hcp, (pySortedDesc_perm (fun rc2 : Row × ℕ => rc2.2) _).countP_eq]
    exact reps_countP_le_two pc prtc counts data enc hnodup

/-- C2 witness: a single product `P` (count 10) with one non-noise row is
covered by at least one and at most two sampler rows. -/
theorem C2_representative_coverage_witness :
    (∃ r2 ∈ sampleData ["P"] ["OTHER"] [("P", 10)]
        [(⟨0, 0, 0, "x", ["k"]⟩ : Row)] [], r2.product = 0) ∧
    (sampleData ["P"] ["OTHER"] [("P", 10)]
        [(⟨0, 0, 0, "x", ["k"]⟩ : Row)] []).countP
      (fun r2 => r2.product == 0) ≤ 2 :=
  C2_representative_coverage ["P"] ["OTHER"] [("P", 10)]
    [(⟨0, 0, 0, "x", ["k"]⟩ : Row)] [] (by decide) "P" 10 (by decide) 0 (by decide)
    (⟨0, 0, 0, "x", ["k"]⟩ : Row) (by decide) rfl
    (fun s hs => by
      rw [show speedControllerEnc ["OTHER"] = none from by decide] at hs
      cases hs)

/-- Counterexample fixture: product `P` (code 0) whose only defect row
carries the noise part `SPEED CONTROLLER` (code 1). -/
def cexRowP : Row := ⟨0, 1, 0, "x", ["k1"]⟩

/-- Counterexample fixture: product `Q` (code 1) with an ordinary row. -/
def cexRowQ : Row := ⟨1, 0, 0, "y", ["k2"]⟩

/-- Counterexample fixture: the historical defect data. -/
def cexData : List Row := [cexRowP, cexRowQ]

/-- Counterexample fixture: monthly production counts. -/
def cexCounts : List (String × ℕ) := [("P", 10), ("Q", 5)]

/-- Counterexample fixture: fitted `제품명` vocabulary. -/
def cexProductClasses : List String := ["P", "Q"]

/-- Counterexample fixture: fitted `부품명` vocabulary. -/
def cexPartClasses : List String := ["OTHER", "SPEED CONTROLLER"]

/-- C2 counterexample: product `P` has nonzero production weight and a
matching historical defect row (`cexRowP`), yet the sampler output
contains no row for `P`, because `P`'s only row carries the noise part and
is filtered out with no per-product fallback. -/
theorem C2_counterexample :
    ((calculate_weights cexCounts).map Prod.fst = ["P", "Q"]) ∧
    (∀ pr ∈ calculate_weights cexCounts, 0 < pr.2) ∧
    (leTransform cexProductClasses "P" = some 0) ∧
    (cexRowP ∈ cexData ∧ cexRowP.product = 0) ∧
    (∀ r ∈ sampleData cexProductClasses cexPartClasses cexCounts cexData [],
      r.product ≠ 0) :=
  ⟨by decide, calculate_weights_pos cexCounts (by decide), by decide, by decide, by decide⟩

/-- C3 (amended): when the noise part `SPEED CONTROLLER` is in the part
vocabulary, its rows are excluded from the representative sample
*unconditionally* — also for a product that has no other candidate rows,
which is then simply dropped.  (The only fallback in the code is the
global random sample taken when *no* product yields representatives; the
claimed per-product exception is refuted by `C3_counterexample`.) -/
theorem C3_noise_unconditionally_excluded (pc prtc : List String)
    (counts : List (String × ℕ)) (data fallback : List Row) (s : ℕ)
    (hsc : speedControllerEnc prtc = some s)
    (hne : representativeSamples pc prtc counts data ≠ []) :
    ∀ r ∈ sampleData pc prtc counts data fallback, r.part ≠ s := by
  intro r hr
  unfold sampleData at hr
  dsimp only at hr
  rw [if_neg (fun h => hne (List.isEmpty_eq_true.mp h))] at hr
  rcases List.mem_map.mp hr with ⟨rc, hrc, rfl⟩
  have hmem : rc ∈ representativeSamples pc prtc counts data :=
    (pySortedDesc_perm _ _).mem_iff.mp hrc
  rcases (mem_concatMap _ _ _).mp hmem with ⟨mc, _, hms⟩
  rcases mem_modelSamples pc prtc data mc.1 mc.2 rc hms with ⟨enc, _, hnf, _, _⟩
  exact noiseFiltered_part prtc _ rc.1 s hsc hnf

/-- C3 witness: on the counterexample fixture, the one row the sampler
returns (`cexRowQ`) does not carry the noise part code 1. -/
theorem C3_noise_unconditionally_excluded_witness :
    (speedControllerEnc cexPartClasses = some 1) ∧ cexRowQ.part ≠ 1 :=
  ⟨by decide,
   C3_noise_unconditionally_excluded cexProductClasses cexPartClasses cexCounts
     cexData [] 1 (by decide) (by decide) cexRowQ (by decide)⟩

/-- C3 counterexample: the noise part is `P`'s only candidate
(`cexRowP` is the only row of product 0 and carries part 1 =
`SPEED CONTROLLER`), yet it is still excluded: the sampler output has no
row of product 0 at all, contradicting the claimed "unless no other
candidates exist" exception. -/
theorem C3_counterexample :
    (speedControllerEnc cexPartClasses = some 1) ∧
    (cexRowP ∈ cexData ∧ cexRowP.part = 1 ∧ cexRowP.product = 0) ∧
    (∀ r ∈ cexData, r.product = 0 → r.part = 1) ∧
    (representativeSamples cexProductClasses cexPartClasses cexCounts cexData ≠ []) ∧
    (∀ r ∈ sampleData cexProductClasses cexPartClasses cexCounts cexData [],
      r.product ≠ 0) := by
  decide

/-! ## Prediction construction (`predict_defect_probability`, tail) -/

/-- Python's banker's rounding `round(x)` on an exact rational: nearest
integer, halves to the even neighbor. -/
def roundHalfEven (q : ℚ) : ℤ :=
  if q - ⌊q⌋ < 1/2 then ⌊q⌋
  else if 1/2 < q - ⌊q⌋ then ⌊q⌋ + 1
  else if ⌊q⌋ % 2 = 0 then ⌊q⌋ else ⌊q⌋ + 1

/-- `round(x, 1)`: rounding to one decimal place, as applied to
`예상불량률`. -/
def round1 (q : ℚ) : ℚ := ((roundHalfEven (q * 10) : ℤ) : ℚ) / 10

/-- One entry of the list `predict_defect_probability` returns:
`{모델, 검출단계, 부품, 예상불량률, 키워드}`. -/
structure Prediction where
  model : String
  stage : String
  part : String
  prob : ℚ
  keywords : String
deriving DecidableEq

/-- The `ValueError` message of the untrained-model guard. -/
def modelNotTrainedMsg : String :=
  "모델이 학습되지 않았습니다. train_model()을 먼저 실행하세요."

/-- The encoder/model state of a `DefectPredictor` instance: the fitted
`classes_` of the three categorical label encoders used at prediction
time, and the `is_trained` flag.  The fitted random forest itself is
external sklearn state and enters as a scoring-function argument. -/
structure DefectPredictor where
  productClasses : List String
  partClasses : List String
  stageClasses : List String
  is_trained : Bool

/-- `train_model`: fits the feature space and the classifier (external
sklearn state) and sets `is_trained = True`. -/
def train_model (p : DefectPredictor) : DefectPredictor :=
  { p with is_trained := true }

/-- Construction of one prediction dict from a sampled row: the part name
is decoded with a `try/except` fallback to `"미분류"` (also applied to a
literal `"nan"`), the model and stage names are decoded without guard
(`none` embeds the raised `ValueError`), and `예상불량률` is the scaled
class-1 probability rounded to one decimal place. -/
def mkPrediction (productClasses stageClasses partClasses : List String)
    (mdl : Row → ℚ) (r : Row) : Option Prediction :=
  let pn0 := (leInverse partClasses r.part).getD "미분류"
  let pn := if pn0 = "nan" then "미분류" else pn0
  match leInverse productClasses r.product, leInverse stageClasses r.stage with
  | some mn, some sn =>
    some ⟨mn, sn, pn, round1 (mdl r * 100), String.intercalate ", " r.keywords⟩
  | _, _ => none

/-- The `for i, (idx, row) in enumerate(sample_data.iterrows())` loop:
all-or-nothing, since an undecodable model/stage code raises for the whole
call. -/
def buildPredictions (productClasses stageClasses partClasses : List String)
    (mdl : Row → ℚ) : List Row → Option (List Prediction)
  | [] => some []
  | r :: rs =>
    match mkPrediction productClasses stageClasses partClasses mdl r,
      buildPredictions productClasses stageClasses partClasses mdl rs with
    | some q, some qs => some (q :: qs)
    | _, _ => none

/-- `sorted(predictions, key=..., reverse=True)` on index-annotated
predictions (the index records the original sample order that the stable
sort preserves among ties). -/
def sortedEnum (preds : List Prediction) : List (ℕ × Prediction) :=
  (preds.enum).insertionSort (stableDescRel (fun q : Prediction => q.prob))

/-- `sorted(...)[: ml_config.top_predictions_count]`. -/
def topSort (preds : List Prediction) : List Prediction :=
  ((sortedEnum preds).map Prod.snd).take top_predictions_count

/-- Embedding of `DefectPredictor.predict_defect_probability`: the
untrained guard, representative sampling (with the random fallback sample
as an explicit argument), per-row scoring with the external classifier
`mdl`, rounding, and the final sort-and-truncate. -/
def predict_defect_probability (p : DefectPredictor) (mdl : Row → ℚ)
    (counts : List (String × ℕ)) (data : List Row) (fallback : List Row) :
    Except String (List Prediction) :=
  if p.is_trained = false then .error modelNotTrainedMsg
  else
    match buildPredictions p.productClasses p.stageClasses p.partClasses mdl
        (sampleData p.productClasses p.partClasses counts data fallback) with
    | none => .error "inverse_transform failed"
    | some preds => .ok (topSort preds)

theorem predict_ok_inv (p : DefectPredictor) (mdl : Row → ℚ)
    (counts : List (String × ℕ)) (data fallback : List Row)
    (preds : List Prediction)
    (hok : predict_defect_probability p mdl counts data fallback = .ok preds) :
    p.is_trained = true ∧
    ∃ built, buildPredictions p.productClasses p.stageClasses p.partClasses mdl
        (sampleData p.productClasses p.partClasses counts data fallback) = some built ∧
      preds = topSort built := by
  unfold predict_defect_probability at hok
  by_cases ht : p.is_trained = false
  · rw [if_pos ht] at hok; cases hok
  · rw [if_neg ht] at hok
    cases hb : buildPredictions p.productClasses p.stageClasses p.partClasses mdl
        (sampleData p.productClasses p.partClasses counts data fallback) with
    | none => rw [hb] at hok; cases hok
    | some built =>
      rw [hb] at hok
      refine ⟨by simpa using ht, built, rfl, ?_⟩
      exact (Except.ok.inj hok).symm

theorem sortedEnum_sorted (preds : List Prediction) :
    (sortedEnum preds).Sorted (stableDescRel (fun q : Prediction => q.prob)) :=
  List.sorted_insertionSort _ _

theorem sortedEnum_perm (preds : List Prediction) :
    (sortedEnum preds).Perm preds.enum :=
  List.perm_insertionSort _ _

theorem sortedEnum_stable (preds : List Prediction) :
    (sortedEnum preds).Pairwise
      (fun a b => (b.2.prob ≤ a.2.prob) ∧ (a.2.prob = b.2.prob → a.1 < b.1)) := by
  have hs : (sortedEnum preds).Pairwise (stableDescRel (fun q : Prediction => q.prob)) :=
    sortedEnum_sorted preds
  have hnd : ((sortedEnum preds).map Prod.fst).Nodup := by
    have hperm := (sortedEnum_perm preds).map Prod.fst
    rw [List.enum_map_fst] at hperm
    exact hperm.symm.nodup (List.nodup_range _)
  have hne : (sortedEnum preds).Pairwise (fun a b => a.1 ≠ b.1) :=
    (List.pairwise_map.mp hnd)
  refine (hs.and hne).imp ?_
  rintro a b ⟨hr, hab⟩
  constructor
  · rcases hr with hlt | ⟨heq, _⟩
    · exact le_of_lt hlt
    · exact le_of_eq heq.symm
  · intro heq
    rcases hr with hlt | ⟨_, hle⟩
    · exact absurd (lt_of_lt_of_le hlt (le_of_eq heq)) (lt_irrefl _)
    · exact lt_of_le_of_ne hle hab

theorem topSort_pairwise (preds : List Prediction) :
    (topSort preds).Pairwise (fun a b => b.prob ≤ a.prob) := by
  unfold topSort
  apply List.Pairwise.sublist (List.take_sublist _ _)
  rw [List.pairwise_map]
  exact (sortedEnum_stable preds).imp (fun h => h.1)

theorem topSort_length (preds : List Prediction) :
    (topSort preds).length ≤ top_predictions_count := by
  unfold topSort
  rw [List.length_take]
  exact min_le_left _ _

theorem mem_topSort (preds : List Prediction) (q : Prediction)
    (h : q ∈ topSort preds) : q ∈ preds := by
  unfold topSort at h
  have h1 : q ∈ (sortedEnum preds).map Prod.snd := (List.take_sublist _ _).mem h
  rcases List.mem_map.mp h1 with ⟨pr, hpr, rfl⟩
  have h2 : pr ∈ preds.enum := (sortedEnum_perm preds).mem_iff.mp hpr
  have h3 : pr.2 ∈ preds.enum.map Prod.snd := List.mem_map_of_mem Prod.snd h2
  rwa [List.enum_map_snd] at h3

theorem mem_buildPredictions (productClasses stageClasses partClasses : List String)
    (mdl : Row → ℚ) (sample : List Row) (built : List Prediction)
    (hb : buildPredictions productClasses stageClasses partClasses mdl sample =
      some built) (q : Prediction) (hq : q ∈ built) :
    ∃ r ∈ sample, mkPrediction productClasses stageClasses partClasses mdl r = some q := by
  induction sample generalizing built with
  | nil =>
    unfold buildPredictions at hb
    cases hb
    cases hq
  | cons r rs ih =>
    unfold buildPredictions at hb
    cases hmk : mkPrediction productClasses stageClasses partClasses mdl r with
    | none => rw [hmk] at hb; cases hb
    | some q1 =>
      rw [hmk] at hb
      cases hrest : buildPredictions productClasses stageClasses partClasses mdl rs with
      | none => rw [hrest] at hb; cases hb
      | some qs =>
        rw [hrest] at hb
        cases hb
        rcases List.mem_cons.mp hq with rfl | hmem
        · exact ⟨r, by simp, hmk⟩
        · rcases ih qs hrest hmem with ⟨r2, hr2, hr2m⟩
          exact ⟨r2, by simp [hr2], hr2m⟩

theorem mkPrediction_prob (productClasses stageClasses partClasses : List String)
    (mdl : Row → ℚ) (r : Row) (q : Prediction)
    (h : mkPrediction productClasses stageClasses partClasses mdl r = some q) :
    q.prob = round1 (mdl r * 100) := by
  unfold mkPrediction at h
  cases hm : leInverse productClasses r.product with
  | none => rw [hm] at h; cases h
  | some mn =>
    cases hst : leInverse stageClasses r.stage with
    | none => rw [hm, hst] at h; cases h
    | some sn =>
      rw [hm, hst] at h
      cases h
      rfl

theorem roundHalfEven_nonneg (x : ℚ) (h : 0 ≤ x) : 0 ≤ roundHalfEven x := by
  unfold roundHalfEven
  have hf : (0 : ℤ) ≤ ⌊x⌋ := Int.floor_nonneg.mpr h
  split_ifs <;> omega

theorem roundHalfEven_le (x : ℚ) (n : ℤ) (h : x ≤ n) : roundHalfEven x ≤ n := by
  have hf : ⌊x⌋ ≤ n := by
    have := Int.floor_le_floor h
    rwa [Int.floor_intCast] at this
  have hfx : (⌊x⌋ : ℚ) ≤ x := Int.floor_le x
  unfold roundHalfEven
  split_ifs with h1 h2 h3
  · exact hf
  · have hlt : ⌊x⌋ < n := by
      rcases lt_or_eq_of_le hf with h4 | h4
      · exact h4
      · exfalso
        rw [h4] at h2
        have : (n : ℚ) < x := by linarith
        have := lt_of_lt_of_le this h
        exact lt_irrefl _ this
    omega
  · exact hf
  · have heq : x - ⌊x⌋ = 1/2 := le_antisymm (not_lt.mp h2) (not_lt.mp h1)
    have hlt : (⌊x⌋ : ℚ) < n := by
      have hx : x = (⌊x⌋ : ℚ) + 1/2 := by linarith
      have : (⌊x⌋ : ℚ) + 1/2 ≤ n := by rw [← hx]; exact h
      linarith
    have : ⌊x⌋ < n := by exact_mod_cast hlt
    omega

theorem round1_bounds (q : ℚ) (h0 : 0 ≤ q) (h1 : q ≤ 100) :
    0 ≤ round1 q ∧ round1 q ≤ 100 := by
  unfold round1
  constructor
  · apply div_nonneg _ (by norm_num)
    exact_mod_cast roundHalfEven_nonneg (q * 10) (by positivity)
  · rw [div_le_iff (by norm_num : (0 : ℚ) < 10)]
    have h2 : roundHalfEven (q * 10) ≤ (1000 : ℤ) := by
      apply roundHalfEven_le
      push_cast
      linarith
    calc ((roundHalfEven (q * 10) : ℤ) : ℚ) ≤ ((1000 : ℤ) : ℚ) := by exact_mod_cast h2
      _ = 100 * 10 := by norm_num

theorem roundHalfEven_intCast (n : ℤ) : roundHalfEven ((n : ℤ) : ℚ) = n := by
  unfold roundHalfEven
  rw [Int.floor_intCast]
  rw [if_pos]
  norm_num

theorem round1_intCast (n : ℤ) : round1 ((n : ℤ) : ℚ) = ((n : ℤ) : ℚ) := by
  unfold round1
  have h : ((n : ℤ) : ℚ) * 10 = (((10 * n : ℤ) : ℤ) : ℚ) := by push_cast; ring
  rw [h, roundHalfEven_intCast]
  push_cast
  ring

/-- C7: a successful `predict_defect_probability` call returns a list
sorted non-increasing by `예상불량률`, of length at most
`top_predictions_count` (5), equal to the stable descending sort of the
built predictions truncated to the top 5; among equal probabilities the
original sample order is preserved (strictly increasing original
indices). -/
theorem C7_sorted_truncated_stable (p : DefectPredictor) (mdl : Row → ℚ)
    (counts : List (String × ℕ)) (data fallback : List Row)
    (preds : List Prediction)
    (hok : predict_defect_probability p mdl counts data fallback = .ok preds) :
    preds.Pairwise (fun a b => b.prob ≤ a.prob) ∧
    preds.length ≤ top_predictions_count ∧
    ∀ built,
      buildPredictions p.productClasses p.stageClasses p.partClasses mdl
        (sampleData p.productClasses p.partClasses counts data fallback) = some built →
      preds = topSort built ∧
      (sortedEnum built).Pairwise (fun a b => a.2.prob = b.2.prob → a.1 < b.1) := by
  rcases predict_ok_inv p mdl counts data fallback preds hok with ⟨_, built0, hb0, rfl⟩
  refine ⟨topSort_pairwise _, topSort_length _, ?_⟩
  intro built hb
  rw [hb0] at hb
  have hbe : built0 = built := Option.some.inj hb
  subst hbe
  exact ⟨rfl, (sortedEnum_stable _).imp (fun h => h.2)⟩

/-- C7 witness: the guarantees at a concrete trained predictor whose
sample is empty, where the call returns `ok []`. -/
theorem C7_sorted_truncated_stable_witness :
    (predict_defect_probability ⟨[], [], [], true⟩ (fun _ => (1 : ℚ) / 2) [] [] [] =
      .ok ([] : List Prediction)) ∧
    ([] : List Prediction).Pairwise
      (fun a b : Prediction => b.prob ≤ a.prob) ∧
    ([] : List Prediction).length ≤ top_predictions_count :=
  ⟨rfl,
   (C7_sorted_truncated_stable ⟨[], [], [], true⟩ (fun _ => (1 : ℚ) / 2) [] [] []
     [] rfl).1,
   (C7_sorted_truncated_stable ⟨[], [], [], true⟩ (fun _ => (1 : ℚ) / 2) [] [] []
     [] rfl).2.1⟩

/-- C8: calling `predict_defect_probability` while untrained fails with
the `ModelNotTrainedError` guard (`ValueError` in the source), and after
`train_model` every returned `예상불량률` lies in `[0, 100]`, given that
the classifier's class-1 probabilities lie in `[0, 1]` (the sklearn
`predict_proba` contract). -/
theorem C8_untrained_guard_and_range (p : DefectPredictor) (mdl : Row → ℚ)
    (counts : List (String × ℕ)) (data fallback : List Row)
    (hm : ∀ r, 0 ≤ mdl r ∧ mdl r ≤ 1) :
    (p.is_trained = false →
      predict_defect_probability p mdl counts data fallback =
        .error modelNotTrainedMsg) ∧
    ((train_model p).is_trained = true) ∧
    (∀ preds,
      predict_defect_probability (train_model p) mdl counts data fallback =
        .ok preds →
      ∀ q ∈ preds, 0 ≤ q.prob ∧ q.prob ≤ 100) := by
  refine ⟨?_, rfl, ?_⟩
  · intro ht
    unfold predict_defect_probability
    rw [if_pos ht]
  · intro preds hok q hq
    rcases predict_ok_inv _ mdl counts data fallback preds hok with ⟨_, built, hb, rfl⟩
    have hqb : q ∈ built := mem_topSort built q hq
    rcases mem_buildPredictions _ _ _ mdl _ built hb q hqb with ⟨r, _, hmk⟩
    have hprob : q.prob = round1 (mdl r * 100) := mkPrediction_prob _ _ _ mdl r q hmk
    rcases hm r with ⟨h0, h1⟩
    rw [hprob]
    exact round1_bounds (mdl r * 100) (by linarith) (by linarith)

/-- C8 witness: the untrained guard fires on a concrete untrained
predictor, and the range guarantee holds for the trained call (which
returns `ok []` on empty input). -/
theorem C8_untrained_guard_and_range_witness :
    (predict_defect_probability ⟨[], [], [], false⟩ (fun _ => (1 : ℚ) / 2) [] [] [] =
      .error modelNotTrainedMsg) ∧
    (∀ q ∈ ([] : List Prediction), 0 ≤ q.prob ∧ q.prob ≤ 100) :=
  ⟨(C8_untrained_guard_and_range ⟨[], [], [], false⟩ (fun _ => (1 : ℚ) / 2) [] [] []
      (fun _ => by norm_num)).1 rfl,
   (C8_untrained_guard_and_range ⟨[], [], [], false⟩ (fun _ => (1 : ℚ) / 2) [] [] []
      (fun _ => by norm_num)).2.2 []
     (by rfl)⟩

/-- C10: every `예상불량률` in a successful result is the one-decimal
rounding `round(p, 1)` of a sampled row's scaled raw probability, applied
*before* the sort-and-truncate step; in particular every output value is
an integer multiple of `1/10`, so raw probabilities that agree to one
decimal place yield equal output values and tie in the final ordering. -/
theorem C10_rounded_one_decimal (p : DefectPredictor) (mdl : Row → ℚ)
    (counts : List (String × ℕ)) (data fallback : List Row)
    (preds : List Prediction)
    (hok : predict_defect_probability p mdl counts data fallback = .ok preds) :
    ∀ q ∈ preds,
      (∃ r ∈ sampleData p.productClasses p.partClasses counts data fallback,
        q.prob = round1 (mdl r * 100)) ∧
      (∃ n : ℤ, q.prob = ((n : ℤ) : ℚ) / 10) := by
  intro q hq
  rcases predict_ok_inv p mdl counts data fallback preds hok with ⟨_, built, hb, rfl⟩
  have hqb : q ∈ built := mem_topSort built q hq
  rcases mem_buildPredictions _ _ _ mdl _ built hb q hqb with ⟨r, hr, hmk⟩
  have hprob : q.prob = round1 (mdl r * 100) := mkPrediction_prob _ _ _ mdl r q hmk
  exact ⟨⟨r, hr, hprob⟩, ⟨roundHalfEven (mdl r * 100 * 10), by rw [hprob]; rfl⟩⟩

/-- C10 witness: a one-row sample scored at raw probability `1/2` yields
the single prediction value `50.0 = 500/10`, rounded before the (trivial)
sort. -/
theorem C10_rounded_one_decimal_witness :
    (predict_defect_probability ⟨["P"], ["OTHER"], ["S"], true⟩ (fun _ => (1 : ℚ) / 2)
        [("P", 3)] [(⟨0, 0, 0, "kw", ["k"]⟩ : Row)] [] =
      .ok [⟨"P", "S", "OTHER", 50, "k"⟩]) ∧
    (∀ q ∈ [(⟨"P", "S", "OTHER", 50, "k"⟩ : Prediction)],
      (∃ r ∈ sampleData ["P"] ["OTHER"] [("P", 3)] [(⟨0, 0, 0, "kw", ["k"]⟩ : Row)] [],
        q.prob = round1 ((fun _ : Row => (1 : ℚ) / 2) r * 100)) ∧
      (∃ n : ℤ, q.prob = ((n : ℤ) : ℚ) / 10)) := by
  have hmk : mkPrediction ["P"] ["S"] ["OTHER"] (fun _ => (1 : ℚ) / 2)
      (⟨0, 0, 0, "kw", ["k"]⟩ : Row) = some ⟨"P", "S", "OTHER", 50, "k"⟩ := by
    unfold mkPrediction leInverse
    dsimp only
    rw [show ((1 : ℚ) / 2) * 100 = ((50 : ℤ) : ℚ) from by norm_num, round1_intCast]
    norm_num
    exact ⟨fun h => absurd h (by decide), rfl⟩
  have hok : predict_defect_probability ⟨["P"], ["OTHER"], ["S"], true⟩
      (fun _ => (1 : ℚ) / 2) [("P", 3)] [(⟨0, 0, 0, "kw", ["k"]⟩ : Row)] [] =
      .ok [⟨"P", "S", "OTHER", 50, "k"⟩] := by
    unfold predict_defect_probability
    rw [if_neg (by decide)]
    dsimp only
    rw [show sampleData ["P"] ["OTHER"] [("P", 3)] [(⟨0, 0, 0, "kw", ["k"]⟩ : Row)] [] =
        [(⟨0, 0, 0, "kw", ["k"]⟩ : Row)] from by decide]
    unfold buildPredictions
    rw [hmk]
    rfl
  exact ⟨hok,
    C10_rounded_one_decimal ⟨["P"], ["OTHER"], ["S"], true⟩ (fun _ => (1 : ℚ) / 2)
      [("P", 3)] [(⟨0, 0, 0, "kw", ["k"]⟩ : Row)] [] [⟨"P", "S", "OTHER", 50, "k"⟩] hok⟩
